import Mathlib

/-!
Verification of the fraud-detection API core (`src/main.py`): the input
sanitizer, the prompt builder, the model-response parser, the
`card_last_four` validator and the orchestrator that assembles the
analysis result.

Strings are modelled as their `List Char` code-point sequences (Lean's
`String` is exactly that).  Python's regular-expression constructs are
embedded by small deterministic matchers:

* `\s` is modelled by `isWs` (the ASCII whitespace class
  space/tab/newline/carriage-return/form-feed/vertical-tab); all texts
  the claims quantify over are covered by this class.
* `\w` is modelled by `isWordChar` (ASCII letters, digits, underscore).
* `re.IGNORECASE` is modelled by comparing `Char.toLower` images.
* In every pattern of the source, a `\s*`/`\s+` is followed by a
  non-whitespace literal, and a lazy `(.+?)` is controlled by a
  lookahead; in these situations the Python engine's backtracking is
  deterministic (only the maximal whitespace run can extend to a full
  match, and the lazy group stops at the first qualifying position), so
  the matchers below implement that deterministic behaviour directly.
* `$` without `re.MULTILINE` matches at the end of the string and just
  before a final newline; `atDollar` models exactly that.
-/

set_option maxRecDepth 16384

namespace FraudApi

/-- Python's `\s` class (ASCII part), also used for `str.strip`. -/
def isWs (c : Char) : Bool :=
  c == ' ' || c == '\t' || c == '\n' || c == '\r' || c == '\x0b' || c == '\x0c'

/-- Python's `\w` class (ASCII part). -/
def isWordChar (c : Char) : Bool :=
  c.isAlpha || c.isDigit || c == '_'

/-- `needle` is a case-insensitive prefix of `hay` (`re.IGNORECASE` letter folding). -/
def isPrefixCI : List Char → List Char → Bool
  | [], _ => true
  | _ :: _, [] => false
  | c :: cs, x :: xs => (x.toLower == c.toLower) && isPrefixCI cs xs

/-- Suffix of `hay` that follows the first case-insensitive occurrence of
`needle`, if any. -/
def firstOccSuffix (needle : List Char) : List Char → Option (List Char)
  | [] => none
  | x :: xs =>
    if isPrefixCI needle (x :: xs) then some ((x :: xs).drop needle.length)
    else firstOccSuffix needle xs

/-- `hay` contains a case-insensitive occurrence of `needle`. -/
def containsCI (needle hay : List Char) : Bool :=
  (firstOccSuffix needle hay).isSome

/-- Prefix of the text up to (excluding) the first case-insensitive
occurrence of `stop`; the whole text when `stop` never occurs. -/
def upToStop (stop : List Char) : List Char → List Char
  | [] => []
  | x :: xs => if isPrefixCI stop (x :: xs) then [] else x :: upToStop stop xs

/-- Python `str.strip()`: remove leading and trailing whitespace. -/
def stripL (l : List Char) : List Char :=
  ((l.dropWhile isWs).reverse.dropWhile isWs).reverse

/-! ## Sanitizer (`sanitize_input`, src/main.py lines 81-100) -/

/-- One element of a compiled injection pattern: a literal character
(compared case-insensitively) or a whitespace class with a minimum
repetition count (`ws 0` for `\s*`, `ws 1` for `\s+`). -/
inductive Tok where
  | lit : Char → Tok
  | ws : Nat → Tok
deriving DecidableEq

/-- Literal word as pattern tokens. -/
def lits (s : String) : List Tok := s.data.map Tok.lit

def pat_ignore_previous : List Tok :=
  lits "ignore" ++ [Tok.ws 1] ++ lits "previous" ++ [Tok.ws 1] ++ lits "instructions"

def pat_ignore_above : List Tok := lits "ignore" ++ [Tok.ws 1] ++ lits "above"

def pat_disregard_previous : List Tok := lits "disregard" ++ [Tok.ws 1] ++ lits "previous"

def pat_system : List Tok := lits "system" ++ [Tok.ws 0, Tok.lit ':']

def pat_assistant : List Tok := lits "assistant" ++ [Tok.ws 0, Tok.lit ':']

def pat_user : List Tok := lits "user" ++ [Tok.ws 0, Tok.lit ':']

/-- The `injection_patterns` list of `sanitize_input`, in source order. -/
def injection_patterns : List (List Tok) :=
  [pat_ignore_previous, pat_ignore_above, pat_disregard_previous,
   pat_system, pat_assistant, pat_user]

/-- Length of the maximal whitespace run at the head of `l`. -/
def wsRun (l : List Char) : Nat := (l.takeWhile isWs).length

/-- Length of the match of pattern `p` at the head of `l`, if any.  Each
whitespace class takes the maximal run (in the source patterns it is
always followed by a non-whitespace literal, so regex backtracking can
never produce a different match). -/
def matchLen : List Tok → List Char → Option Nat
  | [], _ => some 0
  | Tok.lit _ :: _, [] => none
  | Tok.lit c :: ts, x :: xs =>
    if x.toLower == c.toLower then (matchLen ts xs).map (· + 1) else none
  | Tok.ws m :: ts, l =>
    if wsRun l < m then none else (matchLen ts (l.drop (wsRun l))).map (· + wsRun l)

/-- One left-to-right deletion pass, with an explicit structural fuel so
that the kernel can evaluate it; the fuel only ever decreases as fast as
the text, so any `fuel ≥ l.length` gives the same result
(`substAux_congr`). -/
def substAux (p : List Tok) : Nat → List Char → List Char
  | _, [] => []
  | 0, x :: xs => x :: xs
  | fuel + 1, x :: xs =>
    match matchLen p (x :: xs) with
    | some (n + 1) => substAux p fuel (xs.drop n)
    | _ => x :: substAux p fuel xs

/-- `re.sub(p, "", l)`: one left-to-right pass deleting every
non-overlapping match of `p`.  (A zero-width match cannot arise: every
source pattern begins with a literal; the fall-through branch treats it
as no match.) -/
def subst (p : List Tok) (l : List Char) : List Char := substAux p l.length l

/-- `sanitize_input` on code points: apply the six substitution passes in
source order, then strip. -/
def sanitizeL (l : List Char) : List Char :=
  stripL (injection_patterns.foldl (fun acc p => subst p acc) l)

/-- `sanitize_input` (src/main.py lines 81-100). -/
def sanitize_input (text : String) : String := String.mk (sanitizeL text.data)

/-! ## Response parser (`parse_claude_response`, src/main.py lines 143-183) -/

/-- Scan left to right, returning the first position where the
position-wise matcher `g` succeeds (the semantics of `re.search`). -/
def scanO (g : List Char → Option α) : List Char → Option α
  | [] => none
  | x :: xs =>
    match g (x :: xs) with
    | some a => some a
    | none => scanO g xs

/-- Attempt `LABEL\s*(\w+)` at the head of `t`: the label (case-insensitive),
then the maximal whitespace run, then a nonempty maximal word-character
run, which is the captured group. -/
def tryToken (label : List Char) (t : List Char) : Option (List Char) :=
  if isPrefixCI label t then
    let w := ((t.drop label.length).dropWhile isWs).takeWhile isWordChar
    if w.isEmpty then none else some w
  else none

/-- Does `$` (no `re.MULTILINE`) match at this suffix: at the very end,
or just before a final newline. -/
def atDollar (t : List Char) : Bool := t.isEmpty || t == ['\n']

/-- Does the lookahead `(?=STOP|$)` hold at this suffix. -/
def qualifies (stop t : List Char) : Bool := isPrefixCI stop t || atDollar t

/-- Continuation of the lazy group `(.+?)` after its first character:
consume characters until the lookahead `(?=stop|$)` holds. -/
def lazyTail (stop : List Char) : List Char → List Char
  | [] => []
  | x :: xs => if qualifies stop (x :: xs) then [] else x :: lazyTail stop xs

/-- The group captured by `\s*(.+?)(?=stop|$)` (with `re.DOTALL`) applied
to the text `rest` that follows the label.  The greedy `\s*` takes the
maximal whitespace run; the lazy group must then consume at least one
character.  When `rest` is nonempty but entirely whitespace, the engine
backtracks `\s*` by one character and the group captures exactly that
final whitespace character. -/
def spanCapture (stop : List Char) (rest : List Char) : Option (List Char) :=
  match rest.dropWhile isWs with
  | [] =>
    match rest with
    | [] => none
    | _ :: _ => some (rest.drop (rest.length - 1))
  | h :: xs => some (h :: lazyTail stop xs)

/-- Attempt `LABEL\s*(.+?)(?=stop|$)` at the head of `t`. -/
def trySpan (label stop : List Char) (t : List Char) : Option (List Char) :=
  if isPrefixCI label t then spanCapture stop (t.drop label.length) else none

/-- Attempt `LABEL\s*(.+)` (with `re.DOTALL`) at the head of `t`: the
greedy group captures everything to the end of the string. -/
def tryRec (label : List Char) (t : List Char) : Option (List Char) :=
  if isPrefixCI label t then
    match (t.drop label.length).dropWhile isWs with
    | [] =>
      match t.drop label.length with
      | [] => none
      | _ :: _ =>
        some ((t.drop label.length).drop ((t.drop label.length).length - 1))
    | h :: xs => some (h :: xs)
  else none

def riskLabel : List Char := "RISK_LEVEL:".data

def confLabel : List Char := "CONFIDENCE:".data

def reasoningLabel : List Char := "REASONING:".data

def redFlagsLabel : List Char := "RED_FLAGS:".data

def recsLabel : List Char := "RECOMMENDATIONS:".data

/-- Python `"a,b".split(",")` (keeps empty segments, never returns an
empty list). -/
def splitOnComma : List Char → List (List Char)
  | [] => [[]]
  | x :: xs =>
    let r := splitOnComma xs
    if x == ',' then [] :: r
    else
      match r with
      | [] => [[x]]
      | h :: t => (x :: h) :: t

/-- `[f.strip() for f in l.split(",") if f.strip()]`. -/
def splitCommaStrip (l : List Char) : List (List Char) :=
  ((splitOnComma l).map stripL).filter (fun x => !x.isEmpty)

def lowerL (l : List Char) : List Char := l.map Char.toLower

/-- The dictionary returned by `parse_claude_response`. -/
structure ParseResult where
  risk_level : String
  confidence : String
  reasoning : String
  red_flags : List String
  recommendations : String
deriving DecidableEq, Repr

/-- `parse_claude_response` (src/main.py lines 143-183). -/
def parse_claude_response (response_text : String) : ParseResult :=
  let t := response_text.data
  { risk_level :=
      match scanO (tryToken riskLabel) t with
      | some w => String.mk (lowerL w)
      | none => "unknown"
    confidence :=
      match scanO (tryToken confLabel) t with
      | some w => String.mk (lowerL w)
      | none => "unknown"
    reasoning :=
      match scanO (trySpan reasoningLabel redFlagsLabel) t with
      | some g => String.mk (stripL g)
      | none => ""
    red_flags :=
      match scanO (trySpan redFlagsLabel recsLabel) t with
      | some g =>
        let ft := stripL g
        if lowerL ft == "none".data then []
        else (splitCommaStrip ft).map String.mk
      | none => []
    recommendations :=
      match scanO (tryRec recsLabel) t with
      | some g => String.mk (stripL g)
      | none => "" }

/-! ## Validation and data model -/

/-- Python `s.isdigit()`: nonempty and all digits (ASCII part). -/
def pyIsDigit (s : String) : Bool := !s.data.isEmpty && s.data.all Char.isDigit

/-- `validate_card_last_four` (src/main.py lines 50-58): the pydantic
field validator; `ValueError` is modelled by `Except.error`.  Python's
`if v` is the truthiness test: `None` and the empty string are falsy. -/
def validate_card_last_four (v : Option String) : Except String (Option String) :=
  match v with
  | none => Except.ok none
  | some s =>
    if s ≠ "" ∧ s.length ≠ 4 then Except.error "Only last 4 digits of card allowed"
    else if s ≠ "" ∧ pyIsDigit s = false then Except.error "Card digits must be numeric"
    else Except.ok (some s)

/-- `TransactionRequest` as it reaches `build_fraud_prompt`.  The float
field `amount` enters the prompt only through its two-decimal rendering
`f"{amount:.2f}"`; `amount_str` stands for that rendered form. -/
structure TransactionRequest where
  transaction_id : String
  amount_str : String
  merchant : String
  category : String
  location : String
  timestamp : String
  card_last_four : Option String

/-- Python `transaction.card_last_four or 'XXXX'`: `None` and the empty
string are replaced by `"XXXX"`. -/
def renderCard : Option String → String
  | none => "XXXX"
  | some s => if s = "" then "XXXX" else s

/-- Tail of the prompt after the transaction details (verbatim from the
f-string in src/main.py lines 113-138). -/
def promptTail : String :=
  "\n\nAnalyze this transaction for fraud indicators. Consider:\n1. Amount appropriateness for category\n2. Unusual location patterns (e.g., high-risk regions)\n3. Merchant reputation concerns\n4. Time-of-day patterns\n5. Round number amounts (common in fraud)\n\nProvide your analysis in this exact format:\n\nRISK_LEVEL: [low/medium/high]\nCONFIDENCE: [low/medium/high]\nREASONING: [2-3 sentences explaining your assessment]\nRED_FLAGS: [comma-separated list of concerns, or \"none\"]\nRECOMMENDATIONS: [1-2 sentence action recommendation]\n\nBe specific and practical. Focus on concrete indicators."

/-- `build_fraud_prompt` (src/main.py lines 103-140): sanitize the three
free-text fields, then interpolate the f-string. -/
def build_fraud_prompt (transaction : TransactionRequest) : String :=
  "You are a fraud detection expert analyzing a credit card transaction.\n\nTransaction Details:\n- Amount: $"
    ++ transaction.amount_str
    ++ "\n- Merchant: " ++ sanitize_input transaction.merchant
    ++ "\n- Category: " ++ sanitize_input transaction.category
    ++ "\n- Location: " ++ sanitize_input transaction.location
    ++ "\n- Time: " ++ transaction.timestamp
    ++ "\n- Card: ****" ++ renderCard transaction.card_last_four
    ++ promptTail

/-- `FraudAnalysisResponse` (src/main.py lines 71-78). -/
structure FraudAnalysisResponse where
  transaction_id : String
  risk_level : String
  confidence : String
  reasoning : String
  red_flags : List String
  recommendations : String
deriving DecidableEq

/-- The response-assembly step of `analyze_transaction` (src/main.py
lines 234-244): the external model call is abstracted as the
`response_text` it returned. -/
def analyze_transaction (transaction : TransactionRequest)
    (response_text : String) : FraudAnalysisResponse :=
  let analysis := parse_claude_response response_text
  { transaction_id := transaction.transaction_id
    risk_level := analysis.risk_level
    confidence := analysis.confidence
    reasoning := analysis.reasoning
    red_flags := analysis.red_flags
    recommendations := analysis.recommendations }

end FraudApi

namespace FraudApi

/-! ## Generic list lemmas -/

theorem length_dropWhile_le (p : α → Bool) : ∀ l : List α, (l.dropWhile p).length ≤ l.length
  | [] => Nat.le_refl _
  | x :: xs => by
    rw [List.dropWhile_cons]
    split
    · exact Nat.le_trans (length_dropWhile_le p xs) (Nat.le_succ _)
    · exact Nat.le_refl _

theorem dropWhile_idem (p : α → Bool) (l : List α) :
    (l.dropWhile p).dropWhile p = l.dropWhile p := by
  induction l with
  | nil => rfl
  | cons x xs ih =>
    by_cases h : p x
    · simp [List.dropWhile_cons, h, ih]
    · simp [List.dropWhile_cons, h]

theorem dropWhile_eq_self_of_no (p : α → Bool) (l : List α)
    (h : ∀ c ∈ l, p c = false) : l.dropWhile p = l := by
  cases l with
  | nil => rfl
  | cons x xs => simp [List.dropWhile_cons, h x (by simp)]

theorem stripL_length_le (l : List Char) : (stripL l).length ≤ l.length := by
  simp only [stripL, List.length_reverse]
  calc ((l.dropWhile isWs).reverse.dropWhile isWs).length
      ≤ (l.dropWhile isWs).reverse.length := length_dropWhile_le _ _
    _ = (l.dropWhile isWs).length := List.length_reverse _
    _ ≤ l.length := length_dropWhile_le _ _

theorem stripL_dropWhile (l : List Char) : stripL (l.dropWhile isWs) = stripL l := by
  simp [stripL, dropWhile_idem]

theorem stripL_append_newline (l : List Char) : stripL (l ++ ['\n']) = stripL l := by
  by_cases h : l.dropWhile isWs = []
  · have h2 : ∀ c ∈ l, isWs c = true := List.dropWhile_eq_nil_iff.mp h
    rw [stripL, List.dropWhile_append_of_pos h2, stripL, h]
    rfl
  · rw [stripL, List.dropWhile_append, if_neg (by simpa using h), List.reverse_append]
    simp only [List.reverse_cons, List.reverse_nil, List.nil_append, List.singleton_append]
    rw [List.dropWhile_cons_of_pos (by decide)]
    rfl

theorem stripL_of_no_ws (l : List Char) (h : ∀ c ∈ l, isWs c = false) : stripL l = l := by
  rw [stripL, dropWhile_eq_self_of_no _ _ h,
    dropWhile_eq_self_of_no _ _ (fun c hc => h c (List.mem_reverse.mp hc)), List.reverse_reverse]

/-! ## Sanitizer lemmas -/

/-- The pattern begins with a literal token (true of all six source
patterns), so it can never produce a zero-width match. -/
def startsWithLit : List Tok → Bool
  | Tok.lit _ :: _ => true
  | _ => false

theorem matchLen_lit_pos {c : Char} {ts : List Tok} {t : List Char} {n : Nat}
    (h : matchLen (Tok.lit c :: ts) t = some n) : 0 < n := by
  cases t with
  | nil => simp [matchLen] at h
  | cons x xs =>
    simp only [matchLen] at h
    split at h
    · obtain ⟨m, -, rfl⟩ := Option.map_eq_some'.mp h
      omega
    · exact absurd h (by simp)

theorem matchLen_pos {p : List Tok} (hp : startsWithLit p = true) {t : List Char} {n : Nat}
    (h : matchLen p t = some n) : 0 < n := by
  match p, hp with
  | Tok.lit c :: ts, _ => exact matchLen_lit_pos h

theorem substAux_nil (p : List Tok) (f : Nat) : substAux p f [] = [] := by
  cases f <;> rfl

theorem substAux_congr (p : List Tok) :
    ∀ (f₁ f₂ : Nat) (l : List Char), l.length ≤ f₁ → l.length ≤ f₂ →
      substAux p f₁ l = substAux p f₂ l := by
  intro f₁
  induction f₁ with
  | zero =>
    intro f₂ l h1 _
    have hl : l = [] := List.length_eq_zero.mp (Nat.le_zero.mp h1)
    rw [hl, substAux_nil, substAux_nil]
  | succ f ih =>
    intro f₂ l h1 h2
    cases l with
    | nil => rw [substAux_nil, substAux_nil]
    | cons x xs =>
      simp only [List.length_cons] at h1 h2
      obtain ⟨g, rfl⟩ : ∃ g, f₂ = g + 1 := ⟨f₂ - 1, by omega⟩
      cases hm : matchLen p (x :: xs) with
      | some n =>
        cases n with
        | zero =>
          simp only [substAux, hm]
          exact congrArg _ (ih g xs (by omega) (by omega))
        | succ m =>
          simp only [substAux, hm]
          have hd := List.length_drop m xs
          exact ih g (xs.drop m) (by omega) (by omega)
      | none =>
        simp only [substAux, hm]
        exact congrArg _ (ih g xs (by omega) (by omega))

theorem subst_nil (p : List Tok) : subst p [] = [] := rfl

theorem subst_cons_match {p : List Tok} {x : Char} {xs : List Char} {n : Nat}
    (h : matchLen p (x :: xs) = some (n + 1)) :
    subst p (x :: xs) = subst p (xs.drop n) := by
  show substAux p (x :: xs).length (x :: xs) = substAux p (xs.drop n).length (xs.drop n)
  simp only [List.length_cons, substAux, h]
  have hd := List.length_drop n xs
  exact substAux_congr p xs.length (xs.drop n).length (xs.drop n) (by omega) (by omega)

theorem subst_cons_nomatch {p : List Tok} {x : Char} {xs : List Char}
    (h : matchLen p (x :: xs) = none) :
    subst p (x :: xs) = x :: subst p xs := by
  show substAux p (x :: xs).length (x :: xs) = x :: substAux p xs.length xs
  simp only [List.length_cons, substAux, h]

theorem subst_cons_zero {p : List Tok} {x : Char} {xs : List Char}
    (h : matchLen p (x :: xs) = some 0) :
    subst p (x :: xs) = x :: subst p xs := by
  show substAux p (x :: xs).length (x :: xs) = x :: substAux p xs.length xs
  simp only [List.length_cons, substAux, h]

theorem substAux_length_le (p : List Tok) :
    ∀ (f : Nat) (l : List Char), (substAux p f l).length ≤ l.length := by
  intro f
  induction f with
  | zero =>
    intro l
    cases l with
    | nil => exact Nat.le_refl _
    | cons x xs => exact Nat.le_refl _
  | succ f ih =>
    intro l
    cases l with
    | nil => rw [substAux_nil]
    | cons x xs =>
      cases hm : matchLen p (x :: xs) with
      | some n =>
        cases n with
        | zero =>
          simp only [substAux, hm, List.length_cons]
          exact Nat.succ_le_succ (ih xs)
        | succ m =>
          simp only [substAux, hm, List.length_cons]
          have h1 := ih (xs.drop m)
          have h2 := List.length_drop m xs
          omega
      | none =>
        simp only [substAux, hm, List.length_cons]
        exact Nat.succ_le_succ (ih xs)

theorem subst_length_le (p : List Tok) (l : List Char) :
    (subst p l).length ≤ l.length :=
  substAux_length_le p l.length l

theorem subst_eq_or_length_lt (p : List Tok) (l : List Char) :
    subst p l = l ∨ (subst p l).length < l.length := by
  cases l with
  | nil => exact Or.inl (subst_nil p)
  | cons x xs =>
    cases hm : matchLen p (x :: xs) with
    | some n =>
      cases n with
      | zero =>
        rw [subst_cons_zero hm]
        rcases subst_eq_or_length_lt p xs with h1 | h1
        · exact Or.inl (by rw [h1])
        · right; simp only [List.length_cons]; omega
      | succ m =>
        right
        rw [subst_cons_match hm]
        have h1 := subst_length_le p (xs.drop m)
        have h2 := List.length_drop m xs
        simp only [List.length_cons]
        omega
    | none =>
      rw [subst_cons_nomatch hm]
      rcases subst_eq_or_length_lt p xs with h1 | h1
      · exact Or.inl (by rw [h1])
      · right; simp only [List.length_cons]; omega
termination_by l.length
decreasing_by all_goals simp only [List.length_cons]; omega

theorem subst_eq_of_length_eq {p : List Tok} {l : List Char}
    (h : (subst p l).length = l.length) : subst p l = l := by
  rcases subst_eq_or_length_lt p l with h1 | h1
  · exact h1
  · omega

/-- Some suffix of `l` matches pattern `p` (an occurrence of the pattern
anywhere in `l`). -/
def hasMatchB (p : List Tok) : List Char → Bool
  | [] => (matchLen p []).isSome
  | x :: xs => (matchLen p (x :: xs)).isSome || hasMatchB p xs

theorem hasMatchB_false_of_subst_eq {p : List Tok} (hp : startsWithLit p = true) :
    ∀ l : List Char, subst p l = l → hasMatchB p l = false := by
  intro l
  induction l with
  | nil =>
    intro _
    match p, hp with
    | Tok.lit c :: ts, _ => simp [hasMatchB, matchLen]
  | cons x xs ih =>
    intro h
    cases hm : matchLen p (x :: xs) with
    | some n =>
      obtain ⟨m, rfl⟩ : ∃ m, n = m + 1 := ⟨n - 1, by have := matchLen_pos hp hm; omega⟩
      rw [subst_cons_match hm] at h
      have h1 := subst_length_le p (xs.drop m)
      have h2 := List.length_drop m xs
      have h3 : (subst p (xs.drop m)).length = (x :: xs).length := by rw [h]
      simp only [List.length_cons] at h3
      omega
    | none =>
      rw [subst_cons_nomatch hm] at h
      have h2 : subst p xs = xs := (List.cons.injEq _ _ _ _ ▸ h).2
      simp [hasMatchB, hm, ih h2]

theorem sanitizeL_eq (l : List Char) :
    sanitizeL l = stripL (subst pat_user (subst pat_assistant (subst pat_system
      (subst pat_disregard_previous (subst pat_ignore_above
        (subst pat_ignore_previous l)))))) := rfl

end FraudApi

namespace FraudApi

theorem foldl_subst_length_le (ps : List (List Tok)) (l : List Char) :
    (ps.foldl (fun acc p => subst p acc) l).length ≤ l.length := by
  induction ps generalizing l with
  | nil => exact Nat.le_refl _
  | cons p ps ih => exact Nat.le_trans (ih (subst p l)) (subst_length_le p l)

/-- If stripping the result of all substitution passes gives back the
input, every single pass already left the input unchanged. -/
theorem subst_eq_of_foldl (ps : List (List Tok)) (l : List Char)
    (h : stripL (ps.foldl (fun acc p => subst p acc) l) = l) :
    ∀ p ∈ ps, subst p l = l := by
  induction ps with
  | nil => simp
  | cons p ps ih =>
    have h0 : stripL (ps.foldl (fun acc p => subst p acc) (subst p l)) = l := h
    have hF := congrArg List.length h0
    have h1 := stripL_length_le (ps.foldl (fun acc p => subst p acc) (subst p l))
    have h2 := foldl_subst_length_le ps (subst p l)
    have h3 := subst_length_le p l
    have e : subst p l = l := subst_eq_of_length_eq (by omega)
    rw [e] at h0
    intro q hq
    rcases List.mem_cons.mp hq with rfl | hq2
    · exact e
    · exact ih h0 q hq2

/-- C1, counterexample.  The input `"ignoresystem: above"` contains the
recognized phrase `"system:"`, yet the sanitizer's output (which is
`"ignore above"`) still contains the recognized phrase
`"ignore above"`: removing `"system:"` concatenated the surrounding text
into a new injection phrase, which the single pass never rescans. -/
theorem C1_counterexample :
    containsCI "system:".data "ignoresystem: above".data = true ∧
    sanitize_input "ignoresystem: above" = "ignore above" ∧
    containsCI "ignore above".data (sanitize_input "ignoresystem: above").data = true := by
  decide

/-- C1, amended.  The guarantee holds whenever the removals did not
concatenate text into a new occurrence, i.e. whenever one further
sanitization pass leaves the output unchanged: such an output contains
no match of any of the six injection patterns (in particular none of the
recognized phrases, in any letter case). -/
theorem C1_amended (s : String)
    (h : sanitize_input (sanitize_input s) = sanitize_input s) :
    ∀ p ∈ injection_patterns, hasMatchB p (sanitize_input s).data = false := by
  intro p hp
  have hL : stripL (injection_patterns.foldl (fun acc p => subst p acc)
      (sanitize_input s).data) = (sanitize_input s).data := by
    have h2 := congrArg String.data h
    simpa [sanitize_input, sanitizeL] using h2
  have he := subst_eq_of_foldl injection_patterns (sanitize_input s).data hL p hp
  have hlit : startsWithLit p = true := by
    have hall : ∀ q ∈ injection_patterns, startsWithLit q = true := by decide
    exact hall p hp
  exact hasMatchB_false_of_subst_eq hlit _ he

/-- C1, witness for the amended theorem at a concrete input. -/
theorem C1_witness :
    hasMatchB pat_system (sanitize_input "hello user: world").data = false :=
  C1_amended "hello user: world" (by decide) pat_system (by decide)

end FraudApi

namespace FraudApi

/-! ## Character-case lemmas -/

theorem char_toNat_ofNat_of_lt {m : Nat} (h : m < 55296) : (Char.ofNat m).toNat = m := by
  rw [Char.ofNat, dif_pos (Or.inl h)]
  rfl

theorem char_toLower_cases (c : Char) :
    (65 ≤ c.toNat ∧ c.toNat ≤ 90 ∧ c.toLower.toNat = c.toNat + 32) ∨ c.toLower = c := by
  rw [Char.toLower]
  split
  · rename_i h
    exact Or.inl ⟨h.1, h.2, char_toNat_ofNat_of_lt (by omega)⟩
  · exact Or.inr rfl

theorem toLower_eq_colon {c : Char} (h : c.toLower = Char.toLower ':') : c = ':' := by
  have hcol : Char.toLower ':' = ':' := by decide
  rw [hcol] at h
  rcases char_toLower_cases c with ⟨h1, h2, h3⟩ | h1
  · rw [h] at h3
    have : (':' : Char).toNat = 58 := rfl
    omega
  · rw [← h1, h]

theorem drop_wsRun (l : List Char) : l.drop (wsRun l) = l.dropWhile isWs := by
  induction l with
  | nil => rfl
  | cons x xs ih =>
    by_cases h : isWs x
    · simp [wsRun, List.takeWhile_cons, h, List.dropWhile_cons, ← ih]
    · simp [wsRun, List.takeWhile_cons, h, List.dropWhile_cons]

/-! ## Pattern decomposition lemmas -/

theorem matchLen_lits_some : ∀ (w : List Char) {ts : List Tok} {t : List Char} {n : Nat},
    matchLen (w.map Tok.lit ++ ts) t = some n →
    ∃ w1 t1 m, t = w1 ++ t1 ∧ w1.length = w.length ∧ lowerL w1 = lowerL w ∧
      matchLen ts t1 = some m ∧ n = w.length + m := by
  intro w
  induction w with
  | nil =>
    intro ts t n h
    exact ⟨[], t, n, rfl, rfl, rfl, h, by simp⟩
  | cons c w ih =>
    intro ts t n h
    cases t with
    | nil => simp [matchLen] at h
    | cons x xs =>
      simp only [List.map_cons, List.cons_append, matchLen] at h
      split at h
      · rename_i hc
        obtain ⟨m0, hn0, rfl⟩ := Option.map_eq_some'.mp h
        obtain ⟨w1, t1, m, rfl, hlen, hlow, hm, rfl⟩ := ih hn0
        refine ⟨x :: w1, t1, m, rfl, by simp [hlen], ?_, hm, by simp; omega⟩
        simp only [lowerL, List.map_cons] at hlow ⊢
        rw [eq_of_beq hc, hlow]
      · exact absurd h (by simp)

theorem matchLen_ws0_colon {ts : List Tok} {t : List Char} {n : Nat}
    (h : matchLen (Tok.ws 0 :: Tok.lit ':' :: ts) t = some n) :
    ∃ rest, t = t.takeWhile isWs ++ ':' :: rest := by
  simp only [matchLen] at h
  rw [if_neg (by omega)] at h
  obtain ⟨m, hm, -⟩ := Option.map_eq_some'.mp h
  rw [drop_wsRun] at hm
  rcases hd : t.dropWhile isWs with _ | ⟨y, ys⟩
  · rw [hd] at hm
    simp [matchLen] at hm
  · rw [hd] at hm
    simp only [matchLen] at hm
    split at hm
    · rename_i hy
      have hy2 : y = ':' := toLower_eq_colon (eq_of_beq hy)
      refine ⟨ys, ?_⟩
      conv_lhs => rw [← List.takeWhile_append_dropWhile isWs t]
      rw [hd, hy2]
    · exact absurd hm (by simp)

/-! ## No-match identity lemmas -/

theorem subst_eq_of_hasMatchB_false {p : List Tok} {l : List Char}
    (h : hasMatchB p l = false) : subst p l = l := by
  induction l with
  | nil => exact subst_nil p
  | cons x xs ih =>
    simp only [hasMatchB, Bool.or_eq_false_iff] at h
    have hnone : matchLen p (x :: xs) = none := Option.not_isSome_iff_eq_none.mp (by simp [h.1])
    rw [subst_cons_nomatch hnone, ih h.2]

theorem matchLen_nil_ws1 (w : List Char) (ts : List Tok) :
    matchLen (w.map Tok.lit ++ Tok.ws 1 :: ts) [] = none := by
  cases w with
  | nil => simp [matchLen, wsRun, List.takeWhile]
  | cons c cs => simp [matchLen]

theorem matchLen_ws1_has_ws {w : List Char} {ts : List Tok} {t : List Char} {n : Nat}
    (h : matchLen (w.map Tok.lit ++ Tok.ws 1 :: ts) t = some n) :
    ∃ c ∈ t, isWs c = true := by
  obtain ⟨w1, t1, m, rfl, -, -, hm, -⟩ := matchLen_lits_some w h
  simp only [matchLen] at hm
  split at hm
  · exact absurd hm (by simp)
  · rename_i hrun
    rw [wsRun] at hrun
    rcases ht : t1.takeWhile isWs with _ | ⟨d, ds⟩
    · rw [ht] at hrun; simp at hrun
    · have hd : d ∈ t1.takeWhile isWs := by rw [ht]; exact List.mem_cons_self _ _
      have hws : isWs d = true := List.mem_takeWhile_imp hd
      have hmem : d ∈ t1 := (List.takeWhile_sublist isWs).mem hd
      exact ⟨d, List.mem_append_right _ hmem, hws⟩

theorem hasMatchB_false_of_no_ws {w : List Char} {ts : List Tok} {l : List Char}
    (hl : ∀ c ∈ l, isWs c = false) :
    hasMatchB (w.map Tok.lit ++ Tok.ws 1 :: ts) l = false := by
  induction l with
  | nil => simp [hasMatchB, matchLen_nil_ws1]
  | cons x xs ih =>
    have hnone : matchLen (w.map Tok.lit ++ Tok.ws 1 :: ts) (x :: xs) = none := by
      cases hm : matchLen (w.map Tok.lit ++ Tok.ws 1 :: ts) (x :: xs) with
      | none => rfl
      | some n =>
        obtain ⟨c, hc, hcw⟩ := matchLen_ws1_has_ws hm
        exact absurd (hl c hc) (by simp [hcw])
    simp [hasMatchB, hnone, ih (fun c hc => hl c (List.mem_cons_of_mem _ hc))]

theorem matchLen_colon_has_colon {w : List Char} {t : List Char} {n : Nat}
    (h : matchLen (w.map Tok.lit ++ [Tok.ws 0, Tok.lit ':']) t = some n) :
    ':' ∈ t := by
  obtain ⟨w1, t1, m, rfl, -, -, hm, -⟩ := matchLen_lits_some w h
  obtain ⟨rest, hrest⟩ := matchLen_ws0_colon hm
  refine List.mem_append_right _ ?_
  rw [hrest]
  exact List.mem_append_right _ (List.mem_cons_self _ _)

theorem hasMatchB_false_of_no_colon {w : List Char} {l : List Char}
    (hl : ∀ c ∈ l, c ≠ ':') :
    hasMatchB (w.map Tok.lit ++ [Tok.ws 0, Tok.lit ':']) l = false := by
  induction l with
  | nil =>
    cases w with
    | nil => simp [hasMatchB, matchLen, wsRun, List.takeWhile]
    | cons c cs => simp [hasMatchB, matchLen]
  | cons x xs ih =>
    have hnone : matchLen (w.map Tok.lit ++ [Tok.ws 0, Tok.lit ':']) (x :: xs) = none := by
      cases hm : matchLen (w.map Tok.lit ++ [Tok.ws 0, Tok.lit ':']) (x :: xs) with
      | none => rfl
      | some n => exact absurd rfl (hl ':' (matchLen_colon_has_colon hm))
    simp [hasMatchB, hnone, ih (fun c hc => hl c (List.mem_cons_of_mem _ hc))]

theorem colon_split_unique : ∀ (A B C D : List Char),
    A ++ ':' :: B = C ++ ':' :: D → ':' ∉ A → ':' ∉ C → A = C ∧ B = D := by
  intro A
  induction A with
  | nil =>
    intro B C D h hA hC
    cases C with
    | nil => simpa using h
    | cons c cs =>
      simp only [List.nil_append, List.cons_append, List.cons.injEq] at h
      exact absurd (h.1 ▸ List.mem_cons_self c cs) hC
  | cons a as ih =>
    intro B C D h hA hC
    cases C with
    | nil =>
      simp only [List.cons_append, List.nil_append, List.cons.injEq] at h
      exact absurd (h.1 ▸ List.mem_cons_self a as) hA
    | cons c cs =>
      simp only [List.cons_append, List.cons.injEq] at h
      obtain ⟨h1, h2⟩ := ih B cs D h.2 (fun hm => hA (List.mem_cons_of_mem _ hm))
        (fun hm => hC (List.mem_cons_of_mem _ hm))
      exact ⟨by rw [h.1, h1], h2⟩

end FraudApi

namespace FraudApi

/-- Removing the `system\s*:` pattern from `pre ++ "system:" ++ suf`
deletes exactly that embedded occurrence when the surrounding text has
no whitespace and no colon, regardless of word boundaries. -/
theorem subst_system_removal : ∀ (pre suf : List Char),
    (∀ c ∈ pre, isWs c = false ∧ c ≠ ':') →
    (∀ c ∈ suf, isWs c = false ∧ c ≠ ':') →
    subst pat_system (pre ++ "system:".data ++ suf) = pre ++ suf := by
  intro pre
  induction pre with
  | nil =>
    intro suf _ hsuf
    show subst pat_system ('s' :: ("ystem:".data ++ suf)) = suf
    have h1 : subst pat_system ('s' :: ("ystem:".data ++ suf)) =
        subst pat_system (("ystem:".data ++ suf).drop 6) := subst_cons_match rfl
    have h2 : subst pat_system suf = suf :=
      subst_eq_of_hasMatchB_false
        (@hasMatchB_false_of_no_colon "system".data _
          (fun c hc => (hsuf c hc).2))
    exact h1.trans h2
  | cons a pre ih =>
    intro suf hpre hsuf
    show subst pat_system (a :: (pre ++ "system:".data ++ suf)) = a :: (pre ++ suf)
    have hsys7 : ∀ c ∈ "system:".data, isWs c = false ∧ c ≠ ':' → True := fun _ _ _ => trivial
    have hmnone : matchLen pat_system (a :: (pre ++ "system:".data ++ suf)) = none := by
      cases hm : matchLen pat_system (a :: (pre ++ "system:".data ++ suf)) with
      | none => rfl
      | some n =>
        exfalso
        obtain ⟨w1, t1, m, heq, hlen, hlow, hm2, -⟩ := matchLen_lits_some "system".data hm
        obtain ⟨rest, hrest⟩ := matchLen_ws0_colon hm2
        have hfull : ∀ c ∈ a :: (pre ++ "system:".data ++ suf), isWs c = false := by
          intro c hc
          rcases List.mem_cons.mp hc with rfl | hc2
          · exact (hpre c (List.mem_cons_self _ _)).1
          · rcases List.mem_append.mp hc2 with hc3 | hc3
            · rcases List.mem_append.mp hc3 with hc4 | hc4
              · exact (hpre c (List.mem_cons_of_mem _ hc4)).1
              · have hsys : ∀ d ∈ "system:".data, isWs d = false := by decide
                exact hsys c hc4
            · exact (hsuf c hc3).1
        have ht1ws : t1.takeWhile isWs = [] := by
          rcases htw : t1.takeWhile isWs with _ | ⟨d, ds⟩
          · rfl
          · exfalso
            have hd0 : d ∈ t1.takeWhile isWs := by rw [htw]; exact List.mem_cons_self d ds
            have hd1 : isWs d = true := List.mem_takeWhile_imp hd0
            have hd2 : d ∈ t1 := (List.takeWhile_sublist isWs).mem hd0
            have hd3 : d ∈ a :: (pre ++ "system:".data ++ suf) := by
              rw [heq]; exact List.mem_append_right w1 hd2
            rw [hfull d hd3] at hd1
            exact Bool.noConfusion hd1
        rw [ht1ws, List.nil_append] at hrest
        have hw1colon : ':' ∉ w1 := by
          intro hmem
          have hmem2 : Char.toLower ':' ∈ lowerL w1 := List.mem_map_of_mem _ hmem
          rw [hlow] at hmem2
          exact absurd hmem2 (by decide)
        have hAcolon : ':' ∉ a :: (pre ++ "system".data) := by
          intro hmem
          rcases List.mem_cons.mp hmem with hc | hc
          · exact (hpre a (List.mem_cons_self _ _)).2 hc.symm
          · rcases List.mem_append.mp hc with hc2 | hc2
            · exact (hpre ':' (List.mem_cons_of_mem _ hc2)).2 rfl
            · exact absurd hc2 (by decide)
        have heq2 : a :: (pre ++ "system:".data ++ suf) =
            (a :: (pre ++ "system".data)) ++ ':' :: suf := by
          simp only [List.cons_append, List.append_assoc, List.cons.injEq, true_and]
          rfl
        have hcombined : (a :: (pre ++ "system".data)) ++ ':' :: suf = w1 ++ ':' :: rest := by
          rw [← heq2, heq, hrest]
        obtain ⟨hAeq, -⟩ := colon_split_unique _ _ _ _ hcombined hAcolon hw1colon
        have hlencontra : (a :: (pre ++ "system".data)).length = w1.length := by rw [hAeq]
        rw [hlen] at hlencontra
        simp only [List.length_cons, List.length_append] at hlencontra
        have : ("system".data).length = 6 := by decide
        omega
    rw [subst_cons_nomatch hmnone]
    exact congrArg (a :: ·) (ih suf (fun c hc => hpre c (List.mem_cons_of_mem _ hc)) hsuf)

/-- C9, counterexample.  The role-label patterns are not anchored to word
boundaries: in `"ecosystem:"` the word `"system"` occurs only as part of
the longer word `"ecosystem"`, yet the sanitizer removes `"system:"` and
returns `"eco"` rather than leaving the text unchanged. -/
theorem C9_counterexample :
    sanitize_input "ecosystem:" = "eco" ∧ ("eco" : String) ≠ "ecosystem:" := by
  decide

/-- C9, amended.  The role-label prefixes are removed wherever they
occur, even inside a longer word: for any whitespace-free and colon-free
context, sanitizing `pre ++ "system:" ++ suf` deletes exactly the
embedded `"system:"`. -/
theorem C9_amended (pre suf : List Char)
    (hpre : ∀ c ∈ pre, isWs c = false ∧ c ≠ ':')
    (hsuf : ∀ c ∈ suf, isWs c = false ∧ c ≠ ':') :
    sanitize_input (String.mk (pre ++ "system:".data ++ suf)) = String.mk (pre ++ suf) := by
  refine congrArg String.mk ?_
  show sanitizeL (pre ++ "system:".data ++ suf) = pre ++ suf
  rw [sanitizeL_eq]
  have hws_all : ∀ c ∈ pre ++ "system:".data ++ suf, isWs c = false := by
    intro c hc
    rcases List.mem_append.mp hc with hc2 | hc2
    · rcases List.mem_append.mp hc2 with hc3 | hc3
      · exact (hpre c hc3).1
      · have hsys : ∀ d ∈ "system:".data, isWs d = false := by decide
        exact hsys c hc3
    · exact (hsuf c hc2).1
  have hnc : ∀ c ∈ pre ++ suf, c ≠ ':' := by
    intro c hc
    rcases List.mem_append.mp hc with hc2 | hc2
    · exact (hpre c hc2).2
    · exact (hsuf c hc2).2
  have hnw : ∀ c ∈ pre ++ suf, isWs c = false := by
    intro c hc
    rcases List.mem_append.mp hc with hc2 | hc2
    · exact (hpre c hc2).1
    · exact (hsuf c hc2).1
  have e1 : subst pat_ignore_previous (pre ++ "system:".data ++ suf) =
      pre ++ "system:".data ++ suf :=
    subst_eq_of_hasMatchB_false (@hasMatchB_false_of_no_ws "ignore".data
      (lits "previous" ++ [Tok.ws 1] ++ lits "instructions") _ hws_all)
  have e2 : subst pat_ignore_above (pre ++ "system:".data ++ suf) =
      pre ++ "system:".data ++ suf :=
    subst_eq_of_hasMatchB_false (@hasMatchB_false_of_no_ws "ignore".data
      (lits "above") _ hws_all)
  have e3 : subst pat_disregard_previous (pre ++ "system:".data ++ suf) =
      pre ++ "system:".data ++ suf :=
    subst_eq_of_hasMatchB_false (@hasMatchB_false_of_no_ws "disregard".data
      (lits "previous") _ hws_all)
  have e4 := subst_system_removal pre suf hpre hsuf
  have e5 : subst pat_assistant (pre ++ suf) = pre ++ suf :=
    subst_eq_of_hasMatchB_false (@hasMatchB_false_of_no_colon "assistant".data _ hnc)
  have e6 : subst pat_user (pre ++ suf) = pre ++ suf :=
    subst_eq_of_hasMatchB_false (@hasMatchB_false_of_no_colon "user".data _ hnc)
  rw [e1, e2, e3, e4, e5, e6, stripL_of_no_ws _ hnw]

/-- C9, witness for the amended theorem at a concrete input
(`"ecosystem:"` sanitizes to `"eco"`). -/
theorem C9_witness :
    sanitize_input (String.mk ("eco".data ++ "system:".data ++ [])) =
      String.mk ("eco".data ++ []) :=
  C9_amended "eco".data [] (by decide) (by decide)

end FraudApi

namespace FraudApi

/-! ## Scanner lemmas -/

theorem tryToken_of_no_label {label u : List Char} (h : isPrefixCI label u = false) :
    tryToken label u = none := by
  simp [tryToken, h]

theorem trySpan_of_no_label {label stop u : List Char} (h : isPrefixCI label u = false) :
    trySpan label stop u = none := by
  simp [trySpan, h]

theorem tryRec_of_no_label {label u : List Char} (h : isPrefixCI label u = false) :
    tryRec label u = none := by
  simp [tryRec, h]

theorem scanO_none {α : Type} {label : List Char} {g : List Char → Option α}
    (hg : ∀ u, isPrefixCI label u = false → g u = none) :
    ∀ t, firstOccSuffix label t = none → scanO g t = none := by
  intro t
  induction t with
  | nil => intro _; rfl
  | cons x xs ih =>
    intro h
    rw [firstOccSuffix] at h
    by_cases hp : isPrefixCI label (x :: xs) = true
    · rw [if_pos hp] at h
      exact absurd h (by simp)
    · have hp2 : isPrefixCI label (x :: xs) = false := by simpa using hp
      rw [if_neg (by simp [hp2])] at h
      simp only [scanO, hg _ hp2]
      exact ih h

theorem scanO_first_of_some {α : Type} {label : List Char} {g : List Char → Option α}
    {rest : List Char} {a : α}
    (hg : ∀ u, isPrefixCI label u = false → g u = none)
    (hgr : ∀ u, isPrefixCI label u = true → u.drop label.length = rest → g u = some a) :
    ∀ t, firstOccSuffix label t = some rest → scanO g t = some a := by
  intro t
  induction t with
  | nil => intro h; exact absurd h (by rw [firstOccSuffix]; simp)
  | cons x xs ih =>
    intro h
    rw [firstOccSuffix] at h
    by_cases hp : isPrefixCI label (x :: xs) = true
    · rw [if_pos hp] at h
      have hd : (x :: xs).drop label.length = rest := by injection h
      simp only [scanO, hgr (x :: xs) hp hd]
    · have hp2 : isPrefixCI label (x :: xs) = false := by simpa using hp
      rw [if_neg (by simp [hp2])] at h
      simp only [scanO, hg _ hp2]
      exact ih h

theorem containsCI_false_iff {needle hay : List Char} :
    containsCI needle hay = false ↔ firstOccSuffix needle hay = none := by
  rw [containsCI]
  cases firstOccSuffix needle hay <;> simp

/-! ## C2: unstructured reply gives the all-default result -/

/-- C2: on reply text with no case-insensitive occurrence of any of the
five labels, the parser returns the all-default dictionary; the embedded
parser is a total function, so no input makes it raise. -/
theorem C2_no_labels_all_defaults (t : String)
    (h1 : containsCI riskLabel t.data = false)
    (h2 : containsCI confLabel t.data = false)
    (h3 : containsCI reasoningLabel t.data = false)
    (h4 : containsCI redFlagsLabel t.data = false)
    (h5 : containsCI recsLabel t.data = false) :
    parse_claude_response t = ⟨"unknown", "unknown", "", [], ""⟩ := by
  have o1 := scanO_none (fun u h => tryToken_of_no_label h) t.data (containsCI_false_iff.mp h1)
  have o2 := scanO_none (fun u h => tryToken_of_no_label h) t.data (containsCI_false_iff.mp h2)
  have o3 := scanO_none (fun u h => @trySpan_of_no_label _ redFlagsLabel _ h) t.data
    (containsCI_false_iff.mp h3)
  have o4 := scanO_none (fun u h => @trySpan_of_no_label _ recsLabel _ h) t.data
    (containsCI_false_iff.mp h4)
  have o5 := scanO_none (fun u h => tryRec_of_no_label h) t.data (containsCI_false_iff.mp h5)
  simp only [parse_claude_response, o1, o2, o3, o4, o5]

/-- C2, witness at a concrete label-free input. -/
theorem C2_witness : parse_claude_response "hello" = ⟨"unknown", "unknown", "", [], ""⟩ :=
  C2_no_labels_all_defaults "hello" (by decide) (by decide) (by decide) (by decide) (by decide)

/-! ## C3: the token rule for risk_level and confidence -/

/-- Maximal word-character run after the whitespace skip following the
label occurrence at position `i`. -/
def wordTokenAt (label t : List Char) (i : Nat) : List Char :=
  (((t.drop i).drop label.length).dropWhile isWs).takeWhile isWordChar

/-- Position `i` starts a case-insensitive occurrence of the label that
is followed, after the whitespace skip, by at least one word
character. -/
def labelQualifiesAt (label t : List Char) (i : Nat) : Bool :=
  isPrefixCI label (t.drop i) && !(wordTokenAt label t i).isEmpty

/-- The extraction rule of amended claim C3: at the first position where
the label occurs and is followed, after the whitespace skip, by at least
one word character, take the lower-cased maximal word-character run;
`"unknown"` when no occurrence qualifies (in particular when the label
is absent). -/
def claimTokenRun (label : List Char) (t : List Char) : String :=
  match (List.range t.length).find? (labelQualifiesAt label t) with
  | none => "unknown"
  | some i => String.mk (lowerL (wordTokenAt label t i))

/-- The risk-level extraction rule as claim C3 states it: the first
whitespace-delimited token after the first occurrence of the label,
lower-cased; `"unknown"` when the label is absent or has no following
token. -/
def claimTokenField (label : List Char) (t : List Char) : String :=
  match firstOccSuffix label t with
  | none => "unknown"
  | some rest =>
    let tok := (rest.dropWhile isWs).takeWhile (fun c => !isWs c)
    if tok.isEmpty then "unknown" else String.mk (lowerL tok)

/-- C3, counterexample.  The source regex captures `\w+`, not a
whitespace-delimited token: on `"RISK_LEVEL: very-high"` the code yields
`"very"` while the claimed rule yields `"very-high"`. -/
theorem C3_counterexample :
    (parse_claude_response "RISK_LEVEL: very-high").risk_level = "very" ∧
    claimTokenField riskLabel "RISK_LEVEL: very-high".data = "very-high" := by
  decide

theorem findSome?_bind_find? {α β : Type} (f : α → Option β) (l : List α) :
    l.findSome? f = (l.find? (fun a => (f a).isSome)).bind f := by
  induction l with
  | nil => rfl
  | cons x xs ih =>
    cases hf : f x with
    | some b => simp [List.findSome?_cons, List.find?_cons, hf]
    | none => simp [List.findSome?_cons, List.find?_cons, hf, ih]

/-- `re.search` position semantics: the structural scan equals the
search over all start indices, leftmost first. -/
theorem scanO_eq_findSome {α : Type} (g : List Char → Option α) :
    ∀ t : List Char, scanO g t = (List.range t.length).findSome? (fun i => g (t.drop i)) := by
  intro t
  induction t with
  | nil => rfl
  | cons x xs ih =>
    cases hg : g (x :: xs) with
    | some a =>
      simp only [scanO, hg, List.length_cons, List.range_succ_eq_map, List.findSome?_cons,
        List.drop_zero]
    | none =>
      simp only [scanO, hg, List.length_cons, List.range_succ_eq_map, List.findSome?_cons,
        List.drop_zero, List.findSome?_map]
      exact ih

theorem tryToken_isSome_eq (label u : List Char) :
    (tryToken label u).isSome =
      (isPrefixCI label u &&
        !(((u.drop label.length).dropWhile isWs).takeWhile isWordChar).isEmpty) := by
  simp only [tryToken]
  by_cases hp : isPrefixCI label u = true
  · simp only [hp, if_true, Bool.true_and]
    by_cases he : (((u.drop label.length).dropWhile isWs).takeWhile isWordChar).isEmpty = true
    · simp [he]
    · simp [he]
  · have hp2 : isPrefixCI label u = false := by simpa using hp
    simp [hp2]

theorem tryToken_eq_some_of {label u : List Char}
    (h1 : isPrefixCI label u = true)
    (h2 : (((u.drop label.length).dropWhile isWs).takeWhile isWordChar).isEmpty = false) :
    tryToken label u =
      some (((u.drop label.length).dropWhile isWs).takeWhile isWordChar) := by
  simp [tryToken, h1, h2]

theorem tokenField_eq (label t : List Char) :
    (match scanO (tryToken label) t with
      | some w => String.mk (lowerL w)
      | none => "unknown") = claimTokenRun label t := by
  have hscan := scanO_eq_findSome (tryToken label) t
  rw [findSome?_bind_find?] at hscan
  have hpred : (fun i => (tryToken label (t.drop i)).isSome) = labelQualifiesAt label t := by
    funext i
    rw [tryToken_isSome_eq]
    rfl
  rw [hpred] at hscan
  cases hfind : (List.range t.length).find? (labelQualifiesAt label t) with
  | none =>
    rw [hfind] at hscan
    simp only [Option.none_bind] at hscan
    rw [hscan]
    simp [claimTokenRun, hfind]
  | some i =>
    rw [hfind] at hscan
    simp only [Option.some_bind] at hscan
    have hq := List.find?_some hfind
    simp only [labelQualifiesAt, Bool.and_eq_true] at hq
    have h2 : (wordTokenAt label t i).isEmpty = false := by simpa using hq.2
    have hsome := tryToken_eq_some_of hq.1 h2
    rw [hsome] at hscan
    rw [hscan]
    simp [claimTokenRun, hfind, wordTokenAt]

/-- C3, amended.  For every input string, `risk_level` equals exactly
the rule: at the first position where `RISK_LEVEL:` occurs
(case-insensitively) followed, after the whitespace skip, by at least
one word character — occurrences with no following word character are
skipped — the field is the lower-cased maximal word-character run
(letters, digits, underscore); it is `"unknown"` when no occurrence
qualifies, in particular when the label is absent.  Identical rule for
`confidence` with `CONFIDENCE:`. -/
theorem C3_amended (t : String) :
    (parse_claude_response t).risk_level = claimTokenRun riskLabel t.data ∧
    (parse_claude_response t).confidence = claimTokenRun confLabel t.data := by
  constructor
  · simp only [parse_claude_response]
    exact tokenField_eq riskLabel t.data
  · simp only [parse_claude_response]
    exact tokenField_eq confLabel t.data


end FraudApi

namespace FraudApi

/-! ## Span-capture lemmas (REASONING / RED_FLAGS fields) -/

theorem upToStop_spec (stop : List Char) : ∀ rest : List Char,
    ∃ after, rest = upToStop stop rest ++ after ∧
      (after = [] ∨ isPrefixCI stop after = true) ∧
      (∀ a d, upToStop stop rest = a ++ d → d ≠ [] →
        isPrefixCI stop (d ++ after) = false) := by
  intro rest
  induction rest with
  | nil =>
    refine ⟨[], rfl, Or.inl rfl, ?_⟩
    intro a d h hd
    exact absurd (List.append_eq_nil.mp h.symm).2 hd
  | cons x xs ih =>
    by_cases hp : isPrefixCI stop (x :: xs) = true
    · refine ⟨x :: xs, ?_, Or.inr hp, ?_⟩
      · rw [upToStop, if_pos hp, List.nil_append]
      · intro a d h hd
        rw [upToStop, if_pos hp] at h
        exact absurd (List.append_eq_nil.mp h.symm).2 hd
    · have hp2 : isPrefixCI stop (x :: xs) = false := by simpa using hp
      obtain ⟨after, heq, hcase, hinv⟩ := ih
      refine ⟨after, ?_, hcase, ?_⟩
      · rw [upToStop, if_neg (by simp [hp2]), List.cons_append, ← heq]
      · intro a d h hd
        rw [upToStop, if_neg (by simp [hp2])] at h
        cases a with
        | nil =>
          rw [List.nil_append] at h
          rw [← h, List.cons_append, ← heq]
          exact hp2
        | cons a0 as =>
          rw [List.cons_append] at h
          have h2 := List.cons.injEq .. ▸ h
          exact hinv as d ((List.cons.injEq _ _ _ _).mp h).2 hd

theorem lazyTail_append {stop after : List Char} (hstop : isPrefixCI stop after = true)
    (hne : after ≠ []) :
    ∀ d : List Char,
      (∀ a d2, d = a ++ d2 → d2 ≠ [] → isPrefixCI stop (d2 ++ after) = false) →
      lazyTail stop (d ++ after) = d := by
  intro d
  induction d with
  | nil =>
    intro _
    cases after with
    | nil => exact absurd rfl hne
    | cons y ys => simp [lazyTail, qualifies, hstop]
  | cons y ys ih =>
    intro hinv
    have hq : qualifies stop (y :: (ys ++ after)) = false := by
      simp only [qualifies, Bool.or_eq_false_iff]
      refine ⟨hinv [] (y :: ys) rfl (by simp), ?_⟩
      simp only [atDollar, Bool.or_eq_false_iff, List.isEmpty_cons]
      refine ⟨trivial, ?_⟩
      simp only [beq_eq_false_iff_ne, ne_eq, List.cons.injEq, not_and]
      intro _ h2
      exact hne (List.append_eq_nil.mp h2).2
    rw [List.cons_append, lazyTail, if_neg (by simp [hq])]
    exact congrArg (y :: ·) (ih (fun a d2 h hd2 => hinv (y :: a) d2 (by rw [h, List.cons_append]) hd2))

theorem lazyTail_no_stop {stop : List Char} : ∀ d : List Char,
    (∀ a d2, d = a ++ d2 → d2 ≠ [] → isPrefixCI stop d2 = false) →
    lazyTail stop d = d ∨ ∃ d2, d = d2 ++ ['\n'] ∧ lazyTail stop d = d2 := by
  intro d
  induction d with
  | nil => intro _; exact Or.inl rfl
  | cons y ys ih =>
    intro hinv
    by_cases hnl : y :: ys = ['\n']
    · right
      refine ⟨[], by simpa using hnl, ?_⟩
      rw [hnl]
      simp [lazyTail, qualifies, atDollar]
    · have hq : qualifies stop (y :: ys) = false := by
        simp only [qualifies, Bool.or_eq_false_iff]
        refine ⟨hinv [] (y :: ys) rfl (by simp), ?_⟩
        simp only [atDollar, Bool.or_eq_false_iff, List.isEmpty_cons]
        exact ⟨trivial, by simpa using hnl⟩
      rw [lazyTail, if_neg (by simp [hq])]
      rcases ih (fun a d2 h hd2 => hinv (y :: a) d2 (by rw [h, List.cons_append]) hd2) with
        h1 | ⟨d2, hd2, h1⟩
      · exact Or.inl (by rw [h1])
      · right
        exact ⟨y :: d2, by rw [hd2, List.cons_append], by rw [h1]⟩

theorem dropWhile_ne_nil_of_any {l : List Char}
    (h : l.any (fun c => !isWs c) = true) : l.dropWhile isWs ≠ [] := by
  intro hnil
  have hall := List.dropWhile_eq_nil_iff.mp hnil
  obtain ⟨c, hc, hcw⟩ := List.any_eq_true.mp h
  rw [hall c hc] at hcw
  simp at hcw

theorem spanCapture_strip (stop : List Char) (rest : List Char)
    (hany : (upToStop stop rest).any (fun c => !isWs c) = true)
    (hstopne : stop ≠ []) :
    ∃ cap, spanCapture stop rest = some cap ∧
      stripL cap = stripL (upToStop stop rest) := by
  obtain ⟨after, heq, hcase, hinv⟩ := upToStop_spec stop rest
  have hb2 : (upToStop stop rest).dropWhile isWs ≠ [] := dropWhile_ne_nil_of_any hany
  have hdw : rest.dropWhile isWs = (upToStop stop rest).dropWhile isWs ++ after := by
    conv_lhs => rw [heq]
    rw [List.dropWhile_append, if_neg (by simpa using hb2)]
  rcases hb2e : (upToStop stop rest).dropWhile isWs with _ | ⟨h0, xs2⟩
  · exact absurd hb2e hb2
  ·
    rw [hb2e, List.cons_append] at hdw
    have hsc : spanCapture stop rest = some (h0 :: lazyTail stop (xs2 ++ after)) := by
      rw [spanCapture.eq_def, hdw]
    have hinv2 : ∀ a d2, xs2 = a ++ d2 → d2 ≠ [] → isPrefixCI stop (d2 ++ after) = false := by
      intro a d2 hsplit hd2
      refine hinv ((upToStop stop rest).takeWhile isWs ++ h0 :: a) d2 ?_ hd2
      conv_lhs => rw [← List.takeWhile_append_dropWhile isWs (upToStop stop rest)]
      rw [hb2e, hsplit, List.append_assoc, List.cons_append]
    rcases hcase with hafter | hstop
    · subst hafter
      rw [List.append_nil] at hsc
      have hinv3 : ∀ a d2, xs2 = a ++ d2 → d2 ≠ [] → isPrefixCI stop d2 = false := by
        intro a d2 hsplit hd2
        have := hinv2 a d2 hsplit hd2
        rwa [List.append_nil] at this
      rcases lazyTail_no_stop xs2 hinv3 with h1 | ⟨d2, hd2, h1⟩
      · refine ⟨h0 :: xs2, by rw [hsc, h1], ?_⟩
        rw [← hb2e, stripL_dropWhile]
      · refine ⟨h0 :: d2, by rw [hsc, h1], ?_⟩
        rw [← stripL_dropWhile (upToStop stop rest), hb2e, hd2]
        rw [show h0 :: (d2 ++ ['\n']) = (h0 :: d2) ++ ['\n'] from rfl, stripL_append_newline]
    · have hafterne : after ≠ [] := by
        intro hnil
        rw [hnil] at hstop
        cases stop with
        | nil => exact hstopne rfl
        | cons s ss => simp [isPrefixCI] at hstop
      rw [lazyTail_append hstop hafterne xs2 hinv2] at hsc
      exact ⟨h0 :: xs2, hsc, by rw [← hb2e, stripL_dropWhile]⟩

end FraudApi

namespace FraudApi

/-- The reasoning extraction rule as claim C4 states it: the text
strictly between the first `REASONING:` occurrence and the next
`RED_FLAGS:` occurrence (or the end of text), trimmed; empty when the
label is absent. -/
def claimSpanField (label stop : List Char) (t : List Char) : String :=
  match firstOccSuffix label t with
  | none => ""
  | some rest => String.mk (stripL (upToStop stop rest))

/-- C4, counterexample.  When only whitespace separates `REASONING:`
from `RED_FLAGS:`, the mandatory nonempty lazy group overshoots: the
code captures `"RED_FLAGS: none"` where the claimed between-labels rule
yields the empty string. -/
theorem C4_counterexample :
    (parse_claude_response "REASONING:\nRED_FLAGS: none").reasoning = "RED_FLAGS: none" ∧
    claimSpanField reasoningLabel redFlagsLabel "REASONING:\nRED_FLAGS: none".data = "" := by
  decide

/-- C4, amended.  Whenever the text strictly between the first
`REASONING:` occurrence and the next `RED_FLAGS:` occurrence (or end of
text) contains at least one non-whitespace character, the reasoning
field is exactly that text trimmed; when the label is absent the field
is the empty string.  (When that text is empty or all whitespace the
capture instead extends past `RED_FLAGS:`, as the counterexample
shows.) -/
theorem C4_amended (t : String) :
    (firstOccSuffix reasoningLabel t.data = none →
      (parse_claude_response t).reasoning = "") ∧
    (∀ rest, firstOccSuffix reasoningLabel t.data = some rest →
      (upToStop redFlagsLabel rest).any (fun c => !isWs c) = true →
      (parse_claude_response t).reasoning =
        String.mk (stripL (upToStop redFlagsLabel rest))) := by
  constructor
  · intro h
    have o := scanO_none (fun u h2 => @trySpan_of_no_label _ redFlagsLabel _ h2) t.data h
    simp only [parse_claude_response, o]
  · intro rest hocc hany
    obtain ⟨cap, hcap, hstrip⟩ := spanCapture_strip redFlagsLabel rest hany (by decide)
    have hgr : ∀ u, isPrefixCI reasoningLabel u = true →
        u.drop reasoningLabel.length = rest →
        trySpan reasoningLabel redFlagsLabel u = some cap := by
      intro u hp hd
      rw [trySpan, if_pos hp, hd, hcap]
    have o := scanO_first_of_some
      (fun u h2 => @trySpan_of_no_label _ redFlagsLabel _ h2) hgr t.data hocc
    simp only [parse_claude_response, o, hstrip]

/-- C4, witness for the amended theorem at a concrete input. -/
theorem C4_witness : (parse_claude_response "REASONING: ok\nRED_FLAGS: none").reasoning = "ok" := by
  have h := (C4_amended "REASONING: ok\nRED_FLAGS: none").2
    (" ok\nRED_FLAGS: none".data) (by decide) (by decide)
  rw [h]
  decide

/-- The red-flags extraction rule as claim C5 states it: the text
strictly between `RED_FLAGS:` and `RECOMMENDATIONS:` (or end of text),
trimmed; the empty list when it equals "none" case-insensitively or the
label is absent; otherwise comma-split, trimmed, empties dropped. -/
def claimRedFlags (t : List Char) : List String :=
  match firstOccSuffix redFlagsLabel t with
  | none => []
  | some rest =>
    let ft := stripL (upToStop recsLabel rest)
    if lowerL ft == "none".data then [] else (splitCommaStrip ft).map String.mk

/-- C5, counterexample.  When only whitespace separates `RED_FLAGS:`
from `RECOMMENDATIONS:`, the code's capture overshoots past the
`RECOMMENDATIONS:` label: it returns `["RECOMMENDATIONS: x"]` where the
claimed between-labels rule yields the empty list. -/
theorem C5_counterexample :
    (parse_claude_response "RED_FLAGS:\nRECOMMENDATIONS: x").red_flags =
      ["RECOMMENDATIONS: x"] ∧
    claimRedFlags "RED_FLAGS:\nRECOMMENDATIONS: x".data = [] := by
  decide

/-- C5, amended.  Whenever the text strictly between the first
`RED_FLAGS:` occurrence and the next `RECOMMENDATIONS:` occurrence (or
end of text) contains a non-whitespace character, the red-flags field
follows the claimed rule on that text (empty list on a case-insensitive
"none", otherwise comma-split, trimmed, empties dropped); the field is
the empty list when the label is absent; and the well-formed synthetic
reply round-trips exactly as the claim states. -/
theorem C5_amended :
    (∀ t : String,
      (firstOccSuffix redFlagsLabel t.data = none →
        (parse_claude_response t).red_flags = []) ∧
      (∀ rest, firstOccSuffix redFlagsLabel t.data = some rest →
        (upToStop recsLabel rest).any (fun c => !isWs c) = true →
        (parse_claude_response t).red_flags =
          (if lowerL (stripL (upToStop recsLabel rest)) == "none".data then []
           else (splitCommaStrip (stripL (upToStop recsLabel rest))).map String.mk))) ∧
    parse_claude_response "RISK_LEVEL: high\nCONFIDENCE: medium\nREASONING: large amount.\nRED_FLAGS: unusual location, odd hour\nRECOMMENDATIONS: flag for review" =
      ⟨"high", "medium", "large amount.", ["unusual location", "odd hour"],
        "flag for review"⟩ := by
  constructor
  · intro t
    constructor
    · intro h
      have o := scanO_none (fun u h2 => @trySpan_of_no_label _ recsLabel _ h2) t.data h
      simp only [parse_claude_response, o]
    · intro rest hocc hany
      obtain ⟨cap, hcap, hstrip⟩ := spanCapture_strip recsLabel rest hany (by decide)
      have hgr : ∀ u, isPrefixCI redFlagsLabel u = true →
          u.drop redFlagsLabel.length = rest →
          trySpan redFlagsLabel recsLabel u = some cap := by
        intro u hp hd
        rw [trySpan, if_pos hp, hd, hcap]
      have o := scanO_first_of_some
        (fun u h2 => @trySpan_of_no_label _ recsLabel _ h2) hgr t.data hocc
      simp only [parse_claude_response, o, hstrip]
  · decide

/-- C5, witness for the amended theorem at a concrete input. -/
theorem C5_witness :
    (parse_claude_response "RED_FLAGS: a, b\nRECOMMENDATIONS: x").red_flags = ["a", "b"] := by
  have h := (C5_amended.1 "RED_FLAGS: a, b\nRECOMMENDATIONS: x").2
    (" a, b\nRECOMMENDATIONS: x".data) (by decide) (by decide)
  rw [h]
  decide

end FraudApi

namespace FraudApi

/-! ## C6: card_last_four validation -/

theorem string_ne_empty_data {s : String} (h : s ≠ "") : s.data ≠ [] := by
  intro h0
  apply h
  cases s with
  | mk d =>
    have hd : d = [] := h0
    rw [hd]

/-- C6, counterexample.  A present-but-empty `card_last_four` is falsy in
Python, so both guards are skipped: `""` is accepted although it is not
exactly 4 numeric characters. -/
theorem C6_counterexample :
    validate_card_last_four (some "") = Except.ok (some "") ∧
    ¬(("" : String).length = 4 ∧ "".data.all Char.isDigit = true) :=
  ⟨rfl, by decide⟩

/-- C6, amended.  For a present and nonempty `card_last_four`,
validation raises exactly when the value is not 4 numeric characters
(so the quoted concrete cases behave as claimed), and any accepted
present value is either empty or exactly 4 digits. -/
theorem C6_amended :
    (∀ s : String, s ≠ "" →
      ((∃ e, validate_card_last_four (some s) = Except.error e) ↔
        ¬(s.length = 4 ∧ s.data.all Char.isDigit = true))) ∧
    (∀ (s : String) (v : Option String), validate_card_last_four (some s) = Except.ok v →
      s = "" ∨ (s.length = 4 ∧ s.data.all Char.isDigit = true)) ∧
    (∃ e, validate_card_last_four (some "12345678") = Except.error e) ∧
    (∃ e, validate_card_last_four (some "56") = Except.error e) ∧
    (∃ e, validate_card_last_four (some "56ab") = Except.error e) ∧
    validate_card_last_four (some "5678") = Except.ok (some "5678") := by
  have hval : ∀ s : String, s ≠ "" → s.length = 4 → s.data.all Char.isDigit = true →
      validate_card_last_four (some s) = Except.ok (some s) := by
    intro s hs h4 hd
    have hpy : pyIsDigit s = true := by
      simp [pyIsDigit, string_ne_empty_data hs, hd]
    simp [validate_card_last_four, h4, hpy]
  have herr1 : ∀ s : String, s ≠ "" → s.length ≠ 4 →
      validate_card_last_four (some s) =
        Except.error "Only last 4 digits of card allowed" := by
    intro s hs h4
    simp [validate_card_last_four, hs, h4]
  have herr2 : ∀ s : String, s ≠ "" → s.length = 4 → s.data.all Char.isDigit = false →
      validate_card_last_four (some s) = Except.error "Card digits must be numeric" := by
    intro s hs h4 hd
    have hpy : pyIsDigit s = false := by simp [pyIsDigit, hd]
    simp [validate_card_last_four, hs, h4, hpy]
  refine ⟨?_, ?_, ?_, ?_, ?_, ?_⟩
  · intro s hs
    by_cases h4 : s.length = 4
    · by_cases hd : s.data.all Char.isDigit = true
      · constructor
        · rintro ⟨e, he⟩
          rw [hval s hs h4 hd] at he
          exact absurd he (by simp)
        · intro hcon
          exact absurd ⟨h4, hd⟩ hcon
      · constructor
        · rintro - ⟨-, hd2⟩
          exact absurd hd2 hd
        · intro _
          exact ⟨_, herr2 s hs h4 (by simpa using hd)⟩
    · constructor
      · rintro - ⟨h4a, -⟩
        exact h4 h4a
      · intro _
        exact ⟨_, herr1 s hs h4⟩
  · intro s v h
    by_cases hs : s = ""
    · exact Or.inl hs
    · right
      by_cases h4 : s.length = 4
      · by_cases hd : s.data.all Char.isDigit = true
        · exact ⟨h4, hd⟩
        · rw [herr2 s hs h4 (by simpa using hd)] at h
          exact absurd h (by simp)
      · rw [herr1 s hs h4] at h
        exact absurd h (by simp)
  · exact ⟨_, rfl⟩
  · exact ⟨_, rfl⟩
  · exact ⟨_, rfl⟩
  · rfl

/-- C6, witness for the amended theorem at concrete inputs. -/
theorem C6_witness :
    ∃ e, validate_card_last_four (some "56ab") = Except.error e :=
  (C6_amended.1 "56ab" (by decide)).mpr (by decide)

/-! ## C8: transaction_id is echoed from the input record -/

/-- C8: the assembled response's `transaction_id` is exactly the input
record's identifier, for every model reply; hence two runs on the same
record with different replies carry the same `transaction_id`. -/
theorem C8_transaction_id_echoed (t : TransactionRequest) (r1 r2 : String) :
    (analyze_transaction t r1).transaction_id = t.transaction_id ∧
    (analyze_transaction t r1).transaction_id = (analyze_transaction t r2).transaction_id :=
  ⟨rfl, rfl⟩

end FraudApi

namespace FraudApi

/-! ## C7: the five output labels appear verbatim and in order -/

/-- `ls` occur verbatim as substrings of `t`, in order. -/
def LabelsInOrder : List (List Char) → List Char → Prop
  | [], _ => True
  | n :: ns, t => ∃ p s, t = p ++ n ++ s ∧ LabelsInOrder ns s

theorem LabelsInOrder_append {ls : List (List Char)} {u : List Char} (t : List Char)
    (h : LabelsInOrder ls u) : LabelsInOrder ls (t ++ u) := by
  cases ls with
  | nil => trivial
  | cons n ns =>
    obtain ⟨p, s, hps, hrest⟩ := h
    exact ⟨t ++ p, s, by rw [hps]; simp [List.append_assoc], hrest⟩

/-- The five output-format labels, in canonical order. -/
def outputLabels : List (List Char) :=
  [riskLabel, confLabel, reasoningLabel, redFlagsLabel, recsLabel]

/-- The six phrases recognized by the sanitizer, as the spec lists them. -/
def injectionPhrases : List String :=
  ["ignore previous instructions", "ignore above", "disregard previous",
   "system:", "assistant:", "user:"]

/-- The field contains no case-insensitive occurrence of any recognized
injection phrase. -/
def NoInjectionPhrase (s : String) : Prop :=
  ∀ p ∈ injectionPhrases, containsCI p.data s.data = false

instance decNoInjectionPhrase (s : String) : Decidable (NoInjectionPhrase s) :=
  inferInstanceAs (Decidable (∀ p ∈ injectionPhrases, containsCI p.data s.data = false))

theorem promptTail_labels : LabelsInOrder outputLabels promptTail.data :=
  ⟨"\n\nAnalyze this transaction for fraud indicators. Consider:\n1. Amount appropriateness for category\n2. Unusual location patterns (e.g., high-risk regions)\n3. Merchant reputation concerns\n4. Time-of-day patterns\n5. Round number amounts (common in fraud)\n\nProvide your analysis in this exact format:\n\n".data,
   " [low/medium/high]\nCONFIDENCE: [low/medium/high]\nREASONING: [2-3 sentences explaining your assessment]\nRED_FLAGS: [comma-separated list of concerns, or \"none\"]\nRECOMMENDATIONS: [1-2 sentence action recommendation]\n\nBe specific and practical. Focus on concrete indicators.".data,
   by decide,
   ⟨" [low/medium/high]\n".data,
    " [low/medium/high]\nREASONING: [2-3 sentences explaining your assessment]\nRED_FLAGS: [comma-separated list of concerns, or \"none\"]\nRECOMMENDATIONS: [1-2 sentence action recommendation]\n\nBe specific and practical. Focus on concrete indicators.".data,
    by decide,
    ⟨" [low/medium/high]\n".data,
     " [2-3 sentences explaining your assessment]\nRED_FLAGS: [comma-separated list of concerns, or \"none\"]\nRECOMMENDATIONS: [1-2 sentence action recommendation]\n\nBe specific and practical. Focus on concrete indicators.".data,
     by decide,
     ⟨" [2-3 sentences explaining your assessment]\n".data,
      " [comma-separated list of concerns, or \"none\"]\nRECOMMENDATIONS: [1-2 sentence action recommendation]\n\nBe specific and practical. Focus on concrete indicators.".data,
      by decide,
      ⟨" [comma-separated list of concerns, or \"none\"]\n".data,
       " [1-2 sentence action recommendation]\n\nBe specific and practical. Focus on concrete indicators.".data,
       by decide, trivial⟩⟩⟩⟩⟩

/-- C7: for every record whose free-text fields carry no injection
phrase, the built prompt contains the five labels verbatim and in the
canonical order.  (The labels come from the fixed tail of the template,
so the hypotheses record the claim's precondition.) -/
theorem C7_labels_in_order (t : TransactionRequest)
    (h1 : NoInjectionPhrase t.merchant) (h2 : NoInjectionPhrase t.category)
    (h3 : NoInjectionPhrase t.location) :
    LabelsInOrder outputLabels (build_fraud_prompt t).data :=
  LabelsInOrder_append
    ("You are a fraud detection expert analyzing a credit card transaction.\n\nTransaction Details:\n- Amount: $"
      ++ t.amount_str ++ "\n- Merchant: " ++ sanitize_input t.merchant
      ++ "\n- Category: " ++ sanitize_input t.category
      ++ "\n- Location: " ++ sanitize_input t.location
      ++ "\n- Time: " ++ t.timestamp
      ++ "\n- Card: ****" ++ renderCard t.card_last_four).data
    promptTail_labels

/-- C7, witness at a concrete record. -/
theorem C7_witness :
    LabelsInOrder outputLabels (build_fraud_prompt
      ⟨"txn_low_001", "47.32", "Starbucks", "food", "San Francisco, CA",
       "2024-12-08T08:15:00Z", some "5678"⟩).data :=
  C7_labels_in_order _ (by decide) (by decide) (by decide)

/-! ## C10: empty card_last_four is treated like an absent one -/

theorem infix_append_left {mid u : List Char} (t : List Char)
    (h : List.IsInfix mid u) : List.IsInfix mid (t ++ u) := by
  obtain ⟨s, r, hs⟩ := h
  exact ⟨t ++ s, r, by rw [← hs]; simp [List.append_assoc]⟩

/-- C10: a present-but-empty `card_last_four` passes validation, and the
prompt renders the card line exactly as for an absent one: the masked
card text `"****XXXX"` appears in the prompt. -/
theorem C10_empty_card_like_absent (tid ast m c l ts : String) :
    validate_card_last_four (some "") = Except.ok (some "") ∧
    build_fraud_prompt ⟨tid, ast, m, c, l, ts, some ""⟩ =
      build_fraud_prompt ⟨tid, ast, m, c, l, ts, none⟩ ∧
    List.IsInfix "****XXXX".data
      (build_fraud_prompt ⟨tid, ast, m, c, l, ts, some ""⟩).data := by
  refine ⟨rfl, rfl, ?_⟩
  have hsplit : (build_fraud_prompt ⟨tid, ast, m, c, l, ts, some ""⟩).data =
      "You are a fraud detection expert analyzing a credit card transaction.\n\nTransaction Details:\n- Amount: $".data
        ++ (ast.data ++ ("\n- Merchant: ".data ++ ((sanitize_input m).data
        ++ ("\n- Category: ".data ++ ((sanitize_input c).data
        ++ ("\n- Location: ".data ++ ((sanitize_input l).data
        ++ ("\n- Time: ".data ++ (ts.data
        ++ ("\n- Card: ****".data ++ ("XXXX".data ++ promptTail.data))))))))))) := by
    simp [build_fraud_prompt, renderCard, List.append_assoc]
  rw [hsplit]
  iterate 10 apply infix_append_left
  exact ⟨"\n- Card: ".data, promptTail.data, by decide⟩

end FraudApi
